import Mathlib

/-!
Verification of the crawl frontier / traversal controller specification
against the source of the adv-crawler repository.

The URL functions are a shallow embedding of `crawler/utils/url_utils.py`,
which delegates to CPython's `urllib.parse` (`urlparse`, `urlunparse` and the
`port` / `hostname` properties); those library routines are embedded here as
well, following the CPython 3.10 implementation of `urlsplit`, `_splitnetloc`,
`_splitparams`, `_hostinfo`, `port` and `hostname`.  Strings are modelled as
`List Char`; Python string methods used by the source (`lower`, `rstrip`,
`replace`, `endswith`, `startswith`, `str.isdigit`/`isascii`) are embedded for
the ASCII fragment, which covers every input appearing in the theorems below.
A `ValueError` raised by the library (mismatched brackets in the authority,
or an invalid port) is modelled as `none`.  The NFKC check of `_checknetloc`
is a no-op on ASCII authorities and is not modelled.

The traversal controller of `crawler/core/crawler.py` is embedded as a state
machine: one step dequeues a frontier item and runs `_handle_request` on it,
with the page's outgoing links and the success of the persistence call
supplied by the environment (`PageData`).  `crawler/core/pipeline.py` is
embedded as `pipelineRun`.
-/

/-- Convert a string literal to the character-list representation. -/
def chars (s : String) : List Char := s.toList

/-- ASCII uppercase letter. -/
def isAsciiUpper (c : Char) : Bool := 'A' ≤ c && c ≤ 'Z'

/-- ASCII lowercase letter. -/
def isAsciiLowerC (c : Char) : Bool := 'a' ≤ c && c ≤ 'z'

/-- ASCII letter; `url[0].isascii() and url[0].isalpha()` in `urlsplit`. -/
def isAsciiAlpha (c : Char) : Bool := isAsciiUpper c || isAsciiLowerC c

/-- ASCII digit; `port.isdigit() and port.isascii()` in the `port` property. -/
def isAsciiDigit (c : Char) : Bool := '0' ≤ c && c ≤ '9'

/-- `scheme_chars` of `urllib.parse`: letters, digits and `+`, `-`, `.`. -/
def schemeChar (c : Char) : Bool :=
  isAsciiAlpha c || isAsciiDigit c || c = '+' || c = '-' || c = '.'

/-- Python `str.lower` on one character, ASCII fragment (tabulated so that
its properties are provable by case analysis). -/
def pyLowerChar (c : Char) : Char :=
  if c = 'A' then 'a' else if c = 'B' then 'b' else if c = 'C' then 'c'
  else if c = 'D' then 'd' else if c = 'E' then 'e' else if c = 'F' then 'f'
  else if c = 'G' then 'g' else if c = 'H' then 'h' else if c = 'I' then 'i'
  else if c = 'J' then 'j' else if c = 'K' then 'k' else if c = 'L' then 'l'
  else if c = 'M' then 'm' else if c = 'N' then 'n' else if c = 'O' then 'o'
  else if c = 'P' then 'p' else if c = 'Q' then 'q' else if c = 'R' then 'r'
  else if c = 'S' then 's' else if c = 'T' then 't' else if c = 'U' then 'u'
  else if c = 'V' then 'v' else if c = 'W' then 'w' else if c = 'X' then 'x'
  else if c = 'Y' then 'y' else if c = 'Z' then 'z' else c

/-- Python `str.lower`, ASCII fragment. -/
def pyLower (l : List Char) : List Char := l.map pyLowerChar

/-- Characters that survive `_UNSAFE_URL_BYTES_TO_REMOVE` removal. -/
def plainChar (c : Char) : Bool := !(c = '\t' || c = '\r' || c = '\n')

/-- `urlsplit` removes tab, CR and LF from the URL before parsing. -/
def removeUnsafe (l : List Char) : List Char := l.filter plainChar

/-- Python `str.startswith` on character lists (prefix test). -/
def lstartsWith : List Char → List Char → Bool
  | [], _ => true
  | _ :: _, [] => false
  | p :: ps, c :: cs => p = c && lstartsWith ps cs

/-- Python `str.endswith` on character lists: `lendsWith l suf`. -/
def lendsWith (l suf : List Char) : Bool := lstartsWith suf.reverse l.reverse

/-- Split at the first occurrence of `sep`; `none` when `sep` is absent.
Models `str.split(sep, 1)`, `str.partition(sep)` and `str.find`-based
splitting in `urllib.parse`. -/
def splitFirst (sep : Char) : List Char → Option (List Char × List Char)
  | [] => none
  | c :: rest =>
    if c = sep then some ([], rest)
    else
      match splitFirst sep rest with
      | none => none
      | some (a, b) => some (c :: a, b)

/-- Delimiters ending the authority in `_splitnetloc`. -/
def netlocSpecial (c : Char) : Bool := c = '/' || c = '?' || c = '#'

/-- `_splitnetloc`: the authority runs to the first `/`, `?` or `#`;
the remainder keeps its delimiter. -/
def splitNetloc : List Char → List Char × List Char
  | [] => ([], [])
  | c :: rest =>
    if netlocSpecial c then ([], c :: rest)
    else
      let p := splitNetloc rest
      (c :: p.1, p.2)

/-- Scheme splitting at the top of `urlsplit`: the part before the first `:`
is a scheme when it is nonempty, starts with an ASCII letter and its other
characters are all scheme characters; the scheme is lowercased. -/
def splitScheme (url : List Char) : List Char × List Char :=
  match splitFirst ':' url with
  | none => ([], url)
  | some (before, after) =>
    match before with
    | [] => ([], url)
    | c :: rest =>
      if isAsciiAlpha c && rest.all schemeChar then (pyLower (c :: rest), after)
      else ([], url)

/-- Result of `urlsplit` (scheme, netloc, path, query, fragment). -/
structure SplitResult where
  scheme : List Char
  netloc : List Char
  path : List Char
  query : List Char
  fragment : List Char
deriving DecidableEq

/-- CPython `urllib.parse.urlsplit` with `allow_fragments=True`.
`none` models the `ValueError` raised on an authority containing `[`
without `]` or vice versa. -/
def urlsplit (url0 : List Char) : Option SplitResult :=
  let url1 := removeUnsafe url0
  let sp := splitScheme url1
  let np :=
    match sp.2 with
    | '/' :: '/' :: rest => splitNetloc rest
    | other => ([], other)
  if ('[' ∈ np.1 ∧ ']' ∉ np.1) ∨ (']' ∈ np.1 ∧ '[' ∉ np.1) then none
  else
    let fp :=
      match splitFirst '#' np.2 with
      | some (a, b) => (a, b)
      | none => (np.2, [])
    let qp :=
      match splitFirst '?' fp.1 with
      | some (a, b) => (a, b)
      | none => (fp.1, [])
    some ⟨sp.1, np.1, qp.1, qp.2, fp.2⟩

/-- Split at the last `/`: `some (before, after)` with the slash dropped and
`after` slash-free; `none` when there is no slash. -/
def splitLastSlash (l : List Char) : Option (List Char × List Char) :=
  match splitFirst '/' l.reverse with
  | none => none
  | some (ra, rb) => some (rb.reverse, ra.reverse)

/-- `urlparse`'s `_splitparams` guarded by its `';' in url` caller check:
parameters start at the first `;` after the last `/` (or the first `;`
when there is no slash). -/
def splitParamsFull (path : List Char) : List Char × List Char :=
  if ';' ∈ path then
    match splitLastSlash path with
    | some (a, b) =>
      (match splitFirst ';' b with
       | some (b1, b2) => (a ++ '/' :: b1, b2)
       | none => (path, []))
    | none =>
      (match splitFirst ';' path with
       | some (p1, p2) => (p1, p2)
       | none => (path, []))
  else (path, [])

/-- `netloc.rpartition('@')[2]`: the part after the last `@`. -/
def afterLastAt (l : List Char) : List Char :=
  match splitFirst '@' l.reverse with
  | none => l
  | some (ra, _) => ra.reverse

/-- `_hostinfo`: the raw host and the raw port text of an authority. -/
def hostinfo (netloc : List Char) : List Char × Option (List Char) :=
  let hi := afterLastAt netloc
  if '[' ∈ hi then
    match splitFirst '[' hi with
    | some (_, bracketed) =>
      match splitFirst ']' bracketed with
      | some (host, portPart) =>
        (match splitFirst ':' portPart with
         | some (_, p) => (host, if p = [] then none else some p)
         | none => (host, none))
      | none => (bracketed, none)
    | none => (hi, none)
  else
    match splitFirst ':' hi with
    | some (h, p) => (h, if p = [] then none else some p)
    | none => (hi, none)

/-- Decimal value of a digit string, as `int(port, 10)`. -/
def decVal (l : List Char) : Nat := l.foldl (fun n c => 10 * n + (c.toNat - 48)) 0

/-- The `port` property: `none` models the `ValueError` raised when the port
text is not all ASCII digits or is out of range; `some none` is a missing
port; `some (some n)` is a parsed port. -/
def portOf (netloc : List Char) : Option (Option Nat) :=
  match (hostinfo netloc).2 with
  | none => some none
  | some p =>
    if p ≠ [] ∧ p.all isAsciiDigit then
      if decVal p ≤ 65535 then some (some (decVal p)) else none
    else none

/-- The `hostname` property: lowercased host, `None` when empty. -/
def hostnameOf (netloc : List Char) : Option (List Char) :=
  let h := (hostinfo netloc).1
  if h = [] then none else some (pyLower h)

/-- Python `str.rstrip('/')`. -/
def rstripSlash (l : List Char) : List Char :=
  (l.reverse.dropWhile (fun c => c = '/')).reverse

/-- `urlunparse` composed with `urlunsplit`; `netloc` is optional because
`normalize_url` may put `parsed.hostname` (which can be `None`) there, and
Python treats `None` and `''` as falsy in the reassembly conditions. -/
def urlunparse (scheme : List Char) (netloc : Option (List Char))
    (path params query fragment : List Char) : List Char :=
  let u1 := if params = [] then path else path ++ ';' :: params
  let netlocTruthy : Bool := match netloc with | some l => !l.isEmpty | none => false
  let u2 :=
    if netlocTruthy || lstartsWith (chars "//") u1 then
      let u := if u1 ≠ [] ∧ u1.head? ≠ some '/' then '/' :: u1 else u1
      '/' :: '/' :: (netloc.getD [] ++ u)
    else u1
  let u3 := if scheme = [] then u2 else scheme ++ ':' :: u2
  let u4 := if query = [] then u3 else u3 ++ '?' :: query
  if fragment = [] then u4 else u4 ++ '#' :: fragment

/-- `URLUtils.normalize_url` after the initial `url.lower()`: parse, strip a
default port (80/http, 443/443), strip trailing slashes from the path (an
empty path becomes `/`), reassemble without the fragment.  `none` models a
propagated `ValueError` from `urlsplit` or the `port` property. -/
def normCore (lurl : List Char) : Option (List Char) :=
  match urlsplit lurl with
  | none => none
  | some sr =>
    let pp := splitParamsFull sr.path
    match portOf sr.netloc with
    | none => none
    | some port =>
      let netloc : Option (List Char) :=
        if port = some 80 ∧ sr.scheme = chars "http" then hostnameOf sr.netloc
        else if port = some 443 ∧ sr.scheme = chars "https" then hostnameOf sr.netloc
        else some sr.netloc
      let p1 := rstripSlash pp.1
      let p2 := if p1 = [] then chars "/" else p1
      some (urlunparse sr.scheme netloc p2 pp.2 sr.query [])

/-- `URLUtils.normalize_url`: `urlparse(url.lower())` followed by `normCore`. -/
def normalize_url (url : List Char) : Option (List Char) := normCore (pyLower url)

/-- Python `str.replace("www.", "")`: removes every occurrence, scanning
left to right. -/
def stripWwwAll : List Char → List Char
  | 'w' :: 'w' :: 'w' :: '.' :: rest => stripWwwAll rest
  | c :: rest => c :: stripWwwAll rest
  | [] => []

/-- `URLUtils.is_same_domain`: lowercase both hosts, delete every `www.`
occurrence from both, then equality or `.<domain>` suffix test; any parse
error is caught and yields `false`. -/
def is_same_domain (url domain : List Char) : Bool :=
  match urlsplit url with
  | none => false
  | some sr =>
    let ud := stripWwwAll (pyLower sr.netloc)
    let d := stripWwwAll (pyLower domain)
    decide (ud = d) || lendsWith ud ('.' :: d)

/-- Modelled from the spec: `is_same_domain` as §4.1 words it, stripping only
an optional leading `www.` from each side before the equality-or-subdomain
test.  Used to exhibit where the source diverges from the spec sentence. -/
def stripWwwLeading (l : List Char) : List Char :=
  if lstartsWith (chars "www.") l then l.drop 4 else l

/-- Modelled from the spec: domain membership with leading-`www.` stripping
only (spec §4.1), for comparison with the source's `is_same_domain`. -/
def sameDomainSpec (url domain : List Char) : Bool :=
  match urlsplit url with
  | none => false
  | some sr =>
    let ud := stripWwwLeading (pyLower sr.netloc)
    let d := stripWwwLeading (pyLower domain)
    decide (ud = d) || lendsWith ud ('.' :: d)

/-! ## The traversal controller of `crawler/core/crawler.py` -/

/-- Crawl configuration consumed by `WebCrawler.__init__`. -/
structure Config where
  max_depth : Nat
  max_pages : Nat
  follow_external : Bool
  base_domain : List Char
deriving DecidableEq

/-- Mutable crawler state: `visited_urls`, `page_count`, the request queue of
pending `(url, depth)` items, and the log of every item ever passed to
`add_requests` (the admission log). -/
structure CrawlState where
  visited : List (List Char)
  page_count : Nat
  pending : List (List Char × Nat)
  admitted : List (List Char × Nat)
deriving DecidableEq

/-- Environment data for one handled page: the absolute link targets the
renderer extracted, and whether the persistence call succeeded. -/
structure PageData where
  links : List (List Char)
  save_ok : Bool
deriving DecidableEq

/-- One link of the `_enqueue_links` loop body: skip when already visited,
when external and `follow_external` is off, or when not `http(s)`;
otherwise enqueue at the given depth.  `is_external` is
`not URLUtils.is_same_domain(absolute_url, base_domain)` as computed by
`_extract_links`. -/
def admitLink (cfg : Config) (d1 : Nat) (s : CrawlState) (url : List Char) :
    CrawlState :=
  if url ∈ s.visited then s
  else if !is_same_domain url cfg.base_domain ∧ !cfg.follow_external then s
  else if !(lstartsWith (chars "http://") url || lstartsWith (chars "https://") url) then s
  else { s with pending := s.pending ++ [(url, d1)],
                admitted := s.admitted ++ [(url, d1)] }

/-- `WebCrawler._enqueue_links`: nothing is admitted when the originating
item's depth has reached `max_depth`; otherwise each link is admitted at
depth `current_depth + 1` subject to the per-link checks. -/
def enqueue_links (cfg : Config) (s : CrawlState) (links : List (List Char))
    (current_depth : Nat) : CrawlState :=
  if cfg.max_depth ≤ current_depth then s
  else links.foldl (admitLink cfg (current_depth + 1)) s

/-- `WebCrawler._handle_request`: return unchanged at the page ceiling;
otherwise mark the URL visited and bump `page_count`, then (inside the
`try` block) persist and enqueue the page's links — a persistence failure
is caught, so the links are not enqueued but nothing propagates. -/
def handle_request (cfg : Config) (s : CrawlState) (url : List Char)
    (depth : Nat) (pd : PageData) : CrawlState :=
  if cfg.max_pages ≤ s.page_count then s
  else
    let s1 := { s with visited := url :: s.visited,
                       page_count := s.page_count + 1 }
    if pd.save_ok then enqueue_links cfg s1 pd.links depth else s1

/-- One iteration of the crawl loop: dequeue the first pending item and run
`_handle_request` on it with the environment-supplied page data. -/
def stepCrawl (cfg : Config) (s : CrawlState) (pd : PageData) : CrawlState :=
  match s.pending with
  | [] => s
  | (url, d) :: rest =>
    handle_request cfg { s with pending := rest } url d pd

/-- The crawl loop: fold the per-page steps over the environment trace. -/
def runCrawl (cfg : Config) (s : CrawlState) (pds : List PageData) : CrawlState :=
  pds.foldl (stepCrawl cfg) s

/-- `WebCrawler.crawl`: the seed is admitted at depth 0 before the loop runs. -/
def crawlInit (start : List Char) : CrawlState :=
  { visited := [], page_count := 0,
    pending := [(start, 0)], admitted := [(start, 0)] }

/-- Modelled from the spec: seed URL validation is performed by the external
request-queue library when `crawl` calls `add_requests` on the start URL
(there is no validation inside `src/`); it is abstracted as the boolean
`seed_ok`.  An invalid seed raises before the crawler loop runs. -/
def crawlRun (seed_ok : Bool) (cfg : Config) (start : List Char)
    (pds : List PageData) : Except (List Char) CrawlState :=
  if seed_ok then Except.ok (runCrawl cfg (crawlInit start) pds)
  else Except.error (chars "invalid seed url")

/-- `CrawlerPipeline.run` / `_run_async`: `_pre_crawl` and `_post_crawl` are
no-ops (`pass`), and any exception of the crawl phase is logged and
re-raised to the caller. -/
def pipelineRun (seed_ok : Bool) (cfg : Config) (start : List Char)
    (pds : List PageData) : Except (List Char) CrawlState :=
  crawlRun seed_ok cfg start pds

/-- Configuration used in the concrete crawl runs below. -/
def cfgCex : Config := ⟨2, 10, false, chars "example.com"⟩

/-- Seed URL of the concrete crawl runs below. -/
def seedCex : List Char := chars "http://example.com"

/-- One-page environment trace: the seed page links to two URLs that differ
only by a trailing slash (same canonical form), and persistence succeeds. -/
def pdsCex : List PageData :=
  [⟨[chars "http://example.com/a", chars "http://example.com/a/"], true⟩]

/-- The state after running the crawl on that trace. -/
def sCex : CrawlState := runCrawl cfgCex (crawlInit seedCex) pdsCex

example : (chars "http://example.com/a", 1) ∈ sCex.admitted ∧
    (chars "http://example.com/a/", 1) ∈ sCex.admitted ∧
    chars "http://example.com/a" ∉ sCex.visited := by decide

/-! ## A structured family of well-formed http(s) URLs

`renderUrl` builds the textual URL of structured components; the character
constraints below say only that a component contains none of the delimiters
that would change how `urlsplit` carves the string up.  `canonUrl` is the
canonical string `normalize_url` produces for such a URL. -/

/-- Optional `:port` text. -/
def optP : Option (List Char) → List Char
  | some p => ':' :: p
  | none => []

/-- Optional `?query` text. -/
def optQ : Option (List Char) → List Char
  | some q => '?' :: q
  | none => []

/-- Optional `#fragment` text. -/
def optF : Option (List Char) → List Char
  | some f => '#' :: f
  | none => []

/-- Textual URL of structured components. -/
def renderUrl (scheme host : List Char) (port : Option (List Char))
    (path : List Char) (query frag : Option (List Char)) : List Char :=
  scheme ++ ':' :: '/' :: '/' ::
    (host ++ (optP port ++ (path ++ (optQ query ++ optF frag))))

/-- Host characters: anything except the delimiters that structure an
authority (and the unsafe bytes). -/
def hostChar (c : Char) : Bool :=
  !(c = '/' || c = '?' || c = '#' || c = ':' || c = '@' || c = '[' || c = ']' ||
    c = '\t' || c = '\r' || c = '\n')

/-- Path characters: anything except `?`, `#`, `;` and the unsafe bytes. -/
def pathChar (c : Char) : Bool :=
  !(c = '?' || c = '#' || c = ';' || c = '\t' || c = '\r' || c = '\n')

/-- Query characters: anything except `#` and the unsafe bytes. -/
def queryChar (c : Char) : Bool :=
  !(c = '#' || c = '\t' || c = '\r' || c = '\n')

/-- The authority `normalize_url` keeps: the port is dropped exactly when it
is the default port of the scheme. -/
def canonNetloc (scheme host : List Char) (port : Option (List Char)) :
    List Char :=
  match port with
  | none => host
  | some p =>
    if (decVal p = 80 ∧ scheme = chars "http") ∨
       (decVal p = 443 ∧ scheme = chars "https") then host
    else host ++ ':' :: p

/-- The path `normalize_url` keeps: trailing slashes stripped, an empty
result replaced by `/`. -/
def canonPath (path : List Char) : List Char :=
  let r := rstripSlash path
  if r = [] then chars "/" else r

/-- The canonical string `normalize_url` produces on the structured family. -/
def canonUrl (scheme host : List Char) (port : Option (List Char))
    (path : List Char) (query : Option (List Char)) : List Char :=
  urlunparse scheme (some (canonNetloc scheme host port)) (canonPath path) []
    (query.getD []) []

/-- The structured port of the canonical URL (dropped when default). -/
def cnPort (scheme : List Char) (port : Option (List Char)) :
    Option (List Char) :=
  match port with
  | none => none
  | some p =>
    if (decVal p = 80 ∧ scheme = chars "http") ∨
       (decVal p = 443 ∧ scheme = chars "https") then none
    else some p

/-- The structured query of the canonical URL (an empty query is dropped by
`urlunparse`). -/
def cnQuery : Option (List Char) → Option (List Char)
  | none => none
  | some q => if q = [] then none else some q

/-- The uppercase ASCII alphabet, indexed. -/
def upAt (i : Nat) : Char := (chars "ABCDEFGHIJKLMNOPQRSTUVWXYZ").getD i ' '

/-- The lowercase ASCII alphabet, indexed. -/
def lowAt (i : Nat) : Char := (chars "abcdefghijklmnopqrstuvwxyz").getD i ' '

/-! ## Lemmas about the traversal controller -/

theorem admitLink_page_count (cfg : Config) (d1 : Nat) (s : CrawlState)
    (url : List Char) : (admitLink cfg d1 s url).page_count = s.page_count := by
  unfold admitLink
  (repeat' split) <;> rfl

theorem admitLink_visited (cfg : Config) (d1 : Nat) (s : CrawlState)
    (url : List Char) : (admitLink cfg d1 s url).visited = s.visited := by
  unfold admitLink
  (repeat' split) <;> rfl

theorem foldl_admitLink_page_count (cfg : Config) (d1 : Nat) :
    ∀ (links : List (List Char)) (s : CrawlState),
      (links.foldl (admitLink cfg d1) s).page_count = s.page_count := by
  intro links
  induction links with
  | nil => intro s; rfl
  | cons l ls ih =>
    intro s
    rw [List.foldl_cons, ih, admitLink_page_count]

theorem foldl_admitLink_visited (cfg : Config) (d1 : Nat) :
    ∀ (links : List (List Char)) (s : CrawlState),
      (links.foldl (admitLink cfg d1) s).visited = s.visited := by
  intro links
  induction links with
  | nil => intro s; rfl
  | cons l ls ih =>
    intro s
    rw [List.foldl_cons, ih, admitLink_visited]

theorem enqueue_links_page_count (cfg : Config) (s : CrawlState)
    (links : List (List Char)) (d : Nat) :
    (enqueue_links cfg s links d).page_count = s.page_count := by
  unfold enqueue_links
  split
  · rfl
  · exact foldl_admitLink_page_count cfg (d + 1) links s

theorem enqueue_links_visited (cfg : Config) (s : CrawlState)
    (links : List (List Char)) (d : Nat) :
    (enqueue_links cfg s links d).visited = s.visited := by
  unfold enqueue_links
  split
  · rfl
  · exact foldl_admitLink_visited cfg (d + 1) links s

theorem mem_admitted_admitLink (cfg : Config) (d1 : Nat) (s : CrawlState)
    (url u : List Char) (d : Nat)
    (h : (u, d) ∈ (admitLink cfg d1 s url).admitted) :
    (u, d) ∈ s.admitted ∨ d = d1 := by
  unfold admitLink at h
  split at h
  · exact Or.inl h
  split at h
  · exact Or.inl h
  split at h
  · exact Or.inl h
  · rcases List.mem_append.mp h with h1 | h2
    · exact Or.inl h1
    · simp only [List.mem_singleton, Prod.mk.injEq] at h2
      exact Or.inr h2.2

theorem mem_admitted_foldl (cfg : Config) (d1 : Nat) :
    ∀ (links : List (List Char)) (s : CrawlState) (u : List Char) (d : Nat),
      (u, d) ∈ (links.foldl (admitLink cfg d1) s).admitted →
      (u, d) ∈ s.admitted ∨ d = d1 := by
  intro links
  induction links with
  | nil => intro s u d h; exact Or.inl h
  | cons l ls ih =>
    intro s u d h
    rw [List.foldl_cons] at h
    rcases ih (admitLink cfg d1 s l) u d h with h1 | h2
    · exact mem_admitted_admitLink cfg d1 s l u d h1
    · exact Or.inr h2

theorem mem_admitted_enqueue (cfg : Config) (s : CrawlState)
    (links : List (List Char)) (cd : Nat) (u : List Char) (d : Nat)
    (h : (u, d) ∈ (enqueue_links cfg s links cd).admitted) :
    (u, d) ∈ s.admitted ∨ (cd < cfg.max_depth ∧ d = cd + 1) := by
  unfold enqueue_links at h
  split at h
  · exact Or.inl h
  · rename_i hlt
    rcases mem_admitted_foldl cfg (cd + 1) links s u d h with h1 | h2
    · exact Or.inl h1
    · exact Or.inr ⟨Nat.lt_of_not_le hlt, h2⟩

theorem mem_admitted_handle (cfg : Config) (s : CrawlState) (url : List Char)
    (depth : Nat) (pd : PageData) (u : List Char) (d : Nat)
    (h : (u, d) ∈ (handle_request cfg s url depth pd).admitted) :
    (u, d) ∈ s.admitted ∨ d ≤ cfg.max_depth := by
  unfold handle_request at h
  split at h
  · exact Or.inl h
  · split at h
    · rcases mem_admitted_enqueue cfg _ pd.links depth u d h with h1 | h2
      · exact Or.inl h1
      · exact Or.inr (h2.2 ▸ Nat.succ_le_of_lt h2.1)
    · exact Or.inl h

theorem mem_admitted_step (cfg : Config) (s : CrawlState) (pd : PageData)
    (u : List Char) (d : Nat)
    (h : (u, d) ∈ (stepCrawl cfg s pd).admitted) :
    (u, d) ∈ s.admitted ∨ d ≤ cfg.max_depth := by
  unfold stepCrawl at h
  split at h
  · exact Or.inl h
  · rcases mem_admitted_handle cfg _ _ _ pd u d h with h1 | h1
    · exact Or.inl h1
    · exact Or.inr h1

theorem runCrawl_depth_inv (cfg : Config) :
    ∀ (pds : List PageData) (s : CrawlState),
      (∀ u d, (u, d) ∈ s.admitted → d ≤ cfg.max_depth) →
      ∀ u d, (u, d) ∈ (runCrawl cfg s pds).admitted → d ≤ cfg.max_depth := by
  intro pds
  induction pds with
  | nil => intro s hs u d h; exact hs u d h
  | cons pd rest ih =>
    intro s hs u d h
    refine ih (stepCrawl cfg s pd) ?_ u d h
    intro u1 d1 h1
    rcases mem_admitted_step cfg s pd u1 d1 h1 with h2 | h2
    · exact hs u1 d1 h2
    · exact h2

theorem stepCrawl_page_count_le (cfg : Config) (s : CrawlState) (pd : PageData)
    (h : s.page_count ≤ cfg.max_pages) :
    (stepCrawl cfg s pd).page_count ≤ cfg.max_pages := by
  unfold stepCrawl
  split
  · exact h
  · unfold handle_request
    split
    · exact h
    · rename_i hnle
      split
      · rw [enqueue_links_page_count]
        exact Nat.succ_le_of_lt (Nat.lt_of_not_le hnle)
      · exact Nat.succ_le_of_lt (Nat.lt_of_not_le hnle)

theorem runCrawl_page_count_le (cfg : Config) :
    ∀ (pds : List PageData) (s : CrawlState),
      s.page_count ≤ cfg.max_pages →
      (runCrawl cfg s pds).page_count ≤ cfg.max_pages := by
  intro pds
  induction pds with
  | nil => intro s h; exact h
  | cons pd rest ih =>
    intro s h
    exact ih (stepCrawl cfg s pd) (stepCrawl_page_count_le cfg s pd h)

/-! ## Concrete evaluations validating the embedding against CPython behaviour -/

example : normalize_url (chars "HTTP://Example.com:80/a/") =
    some (chars "http://example.com/a") := by decide

example : normalize_url (chars "http://example.com/a") =
    some (chars "http://example.com/a") := by decide

example : normalize_url (chars "http://example.com:8x/") = none := by decide

example : normalize_url (chars "http://[::1]:80/a") =
    some (chars "http://::1/a") := by decide

example : normalize_url (chars "http://::1/a") = none := by decide

example : is_same_domain (chars "https://blog.example.com/x") (chars "example.com") = true := by decide

example : is_same_domain (chars "https://example.org") (chars "example.com") = false := by decide

example : is_same_domain (chars "https://notwww.example.org/x") (chars "notexample.org") = true := by decide

example : sameDomainSpec (chars "https://notwww.example.org/x") (chars "notexample.org") = false := by decide

/-! ## Claim theorems -/

/-- C2: at every observation point of a crawl run the count of visited pages
is at most `max_pages`; no handled page pushes the counter past the ceiling.
(`_handle_request` returns before counting when `page_count >= max_pages`.) -/
theorem C2_page_count_never_exceeds_max (cfg : Config) (start : List Char)
    (pds : List PageData) :
    (runCrawl cfg (crawlInit start) pds).page_count ≤ cfg.max_pages :=
  runCrawl_page_count_le cfg pds (crawlInit start) (Nat.zero_le _)

/-- C3: every item ever admitted to the frontier — the seed at depth 0, and
links at depth `d + 1` admitted only when `d < max_depth` — has depth at
most `max_depth`. -/
theorem C3_admitted_depth_le_max (cfg : Config) (start : List Char)
    (pds : List PageData) (u : List Char) (d : Nat)
    (h : (u, d) ∈ (runCrawl cfg (crawlInit start) pds).admitted) :
    d ≤ cfg.max_depth := by
  refine runCrawl_depth_inv cfg pds (crawlInit start) ?_ u d h
  intro u1 d1 h1
  simp only [crawlInit, List.mem_singleton, Prod.mk.injEq] at h1
  exact h1.2 ▸ Nat.zero_le _

/-- C3 witness: a concrete run admits a link at depth 1 and the theorem
bounds it by `max_depth = 2`. -/
theorem C3_admitted_depth_le_max_witness :
    ((chars "http://example.com/a", 1) ∈ sCex.admitted) ∧ 1 ≤ cfgCex.max_depth :=
  ⟨by decide,
   C3_admitted_depth_le_max cfgCex seedCex pdsCex (chars "http://example.com/a") 1
     (by decide)⟩

/-- C1 counterexample: two distinct URLs with the same canonical form are
both admitted by `_enqueue_links` in one run (the code deduplicates on the
raw URL string against `visited_urls`, which is only populated at fetch
time), and the admitted URL is not in the seen set at admission time —
refuting both halves of the claim at a concrete input. -/
theorem C1_same_canonical_both_admitted_cex :
    normalize_url (chars "http://example.com/a") =
      normalize_url (chars "http://example.com/a/") ∧
    chars "http://example.com/a" ≠ chars "http://example.com/a/" ∧
    (chars "http://example.com/a", 1) ∈ sCex.admitted ∧
    (chars "http://example.com/a/", 1) ∈ sCex.admitted ∧
    chars "http://example.com/a" ∉ sCex.visited := by decide

/-- C1 amended: deduplication is by exact URL string against the
`visited_urls` set, which a URL enters at fetch time (when
`_handle_request` runs), not at admission time; a link whose exact URL has
already been fetched is never enqueued again, but distinct URLs sharing a
canonical form (and a URL admitted but not yet fetched) can each be
admitted. -/
theorem C1_dedup_by_exact_url_at_fetch_time :
    (∀ (cfg : Config) (d1 : Nat) (s : CrawlState) (url : List Char),
      url ∈ s.visited → admitLink cfg d1 s url = s) ∧
    (∀ (cfg : Config) (s : CrawlState) (url : List Char) (depth : Nat)
      (pd : PageData), s.page_count < cfg.max_pages →
      url ∈ (handle_request cfg s url depth pd).visited) := by
  constructor
  · intro cfg d1 s url h
    unfold admitLink
    rw [if_pos h]
  · intro cfg s url depth pd h
    unfold handle_request
    rw [if_neg (Nat.not_le.mpr h)]
    split
    · rw [enqueue_links_visited]
      exact List.mem_cons_self _ _
    · exact List.mem_cons_self _ _

/-- C1 amended witness: the already-fetched seed is not re-admitted, and a
fetched URL is in the visited set. -/
theorem C1_dedup_by_exact_url_at_fetch_time_witness :
    (chars "http://example.com" ∈ sCex.visited) ∧
    admitLink cfgCex 1 sCex (chars "http://example.com") = sCex ∧
    ((crawlInit seedCex).page_count < cfgCex.max_pages) ∧
    seedCex ∈ (handle_request cfgCex (crawlInit seedCex) seedCex 0
      ⟨[], true⟩).visited :=
  ⟨by decide,
   C1_dedup_by_exact_url_at_fetch_time.1 cfgCex 1 sCex (chars "http://example.com")
     (by decide),
   by decide,
   C1_dedup_by_exact_url_at_fetch_time.2 cfgCex (crawlInit seedCex) seedCex 0
     ⟨[], true⟩ (by decide)⟩

/-- C8: when the fetch succeeded but persistence fails (the `try` body of
`_handle_request` raises at `save_page`), the page is still counted exactly
once — the counter and visited set are updated before the `try` block — the
admission log is unchanged (links are not enqueued), the count equals the
successful-save count, and the loop continues with the next item rather
than unwinding. -/
theorem C8_save_failure_counted_and_contained (cfg : Config) (s : CrawlState)
    (url : List Char) (depth : Nat) (links : List (List Char))
    (h : s.page_count < cfg.max_pages) :
    (handle_request cfg s url depth ⟨links, false⟩).page_count =
      s.page_count + 1 ∧
    (handle_request cfg s url depth ⟨links, false⟩).visited = url :: s.visited ∧
    (handle_request cfg s url depth ⟨links, false⟩).admitted = s.admitted ∧
    (handle_request cfg s url depth ⟨links, true⟩).page_count =
      s.page_count + 1 ∧
    (∀ (s2 : CrawlState) (pds : List PageData),
      runCrawl cfg s2 (⟨links, false⟩ :: pds) =
        runCrawl cfg (stepCrawl cfg s2 ⟨links, false⟩) pds) := by
  have hfalse : handle_request cfg s url depth ⟨links, false⟩ =
      { s with visited := url :: s.visited, page_count := s.page_count + 1 } := by
    unfold handle_request
    rw [if_neg (Nat.not_le.mpr h)]
    rfl
  have htrue : (handle_request cfg s url depth ⟨links, true⟩).page_count =
      s.page_count + 1 := by
    unfold handle_request
    rw [if_neg (Nat.not_le.mpr h)]
    exact enqueue_links_page_count cfg _ links depth
  exact ⟨by rw [hfalse], by rw [hfalse], by rw [hfalse], htrue,
    fun s2 pds => rfl⟩

/-- C8 witness: concrete failing-save step on the initial state. -/
theorem C8_save_failure_counted_and_contained_witness :
    ((crawlInit seedCex).page_count < cfgCex.max_pages) ∧
    (handle_request cfgCex (crawlInit seedCex) seedCex 0
      ⟨[chars "http://example.com/a"], false⟩).page_count =
      (crawlInit seedCex).page_count + 1 :=
  ⟨by decide,
   (C8_save_failure_counted_and_contained cfgCex (crawlInit seedCex) seedCex 0
     [chars "http://example.com/a"] (by decide)).1⟩

/-- C9: an invalid seed URL aborts the run as a hard failure surfaced to the
caller before any fetch occurs: the pipeline result is an error, identical
to the result with an empty environment trace, so no page is ever visited
and the crawl loop is never entered.  Seed validation itself happens in the
external request-queue library when `crawl` calls `add_requests`, modelled
abstractly by the `seed_ok` flag. -/
theorem C9_invalid_seed_aborts_before_any_fetch (cfg : Config)
    (start : List Char) (pds : List PageData) :
    pipelineRun false cfg start pds = Except.error (chars "invalid seed url") ∧
    pipelineRun false cfg start pds = pipelineRun false cfg start [] :=
  ⟨rfl, rfl⟩

/-- C5 counterexample: `normalize_url` lower-cases the whole URL
(`urlparse(url.lower())`), so two URLs differing only in path case
normalize to the same string and the path case is not retained. -/
theorem C5_path_case_not_preserved_cex :
    chars "http://example.com/A" ≠ chars "http://example.com/a" ∧
    normalize_url (chars "http://example.com/A") =
      some (chars "http://example.com/a") ∧
    normalize_url (chars "http://example.com/a") =
      some (chars "http://example.com/a") := by decide

/-- C5 amended: `normalize_url` lower-cases the entire URL — scheme, host,
path and query alike — so any two URLs with the same ASCII lowercasing
normalize identically. -/
theorem C5_normalize_lowercases_entire_url (u1 u2 : List Char)
    (h : pyLower u1 = pyLower u2) : normalize_url u1 = normalize_url u2 := by
  unfold normalize_url
  rw [h]

/-- C5 amended witness. -/
theorem C5_normalize_lowercases_entire_url_witness :
    pyLower (chars "HTTP://E.com/A?Q=Z") = pyLower (chars "http://e.com/a?q=z") ∧
    normalize_url (chars "HTTP://E.com/A?Q=Z") =
      normalize_url (chars "http://e.com/a?q=z") :=
  ⟨by decide, C5_normalize_lowercases_entire_url _ _ (by decide)⟩

/-- C6 counterexample: `normalize_url` is not total — it propagates the
`ValueError` of the `port` property on a URL with a non-numeric port
(`http://example.com:8x/`), refuting totality over all input strings. -/
theorem C6_normalize_not_total_cex :
    ¬ (∀ u : List Char, (normalize_url u).isSome = true) := by
  intro h
  exact absurd (h (chars "http://example.com:8x/")) (by decide)

/-- C7 counterexample: `is_same_domain` removes every occurrence of `www.`
(`str.replace`), not only a leading prefix: `notwww.example.org` is judged
in-domain for `notexample.org`, while the spec's leading-prefix semantics
rejects it. -/
theorem C7_strips_all_www_not_only_leading_cex :
    is_same_domain (chars "https://notwww.example.org/x")
      (chars "notexample.org") = true ∧
    sameDomainSpec (chars "https://notwww.example.org/x")
      (chars "notexample.org") = false := by decide

/-- C10 counterexample: `normalize_url` is not idempotent on every input it
accepts: it maps `http://[::1]:80/a` to `http://::1/a` (bracket stripping by
the `hostname` property), and re-normalizing that result raises a
`ValueError` in the `port` property. -/
theorem C10_normalize_not_idempotent_cex :
    ¬ (∀ u r : List Char, normalize_url u = some r → normalize_url r = some r) := by
  intro h
  have h2 := h (chars "http://[::1]:80/a") (chars "http://::1/a") (by decide)
  exact absurd h2 (by decide)

/-! ## Lemmas about characters and lists -/

theorem pyLowerChar_master (c : Char) :
    pyLowerChar c = c ∨
    ∃ i : Fin 26, c = upAt i.val ∧ pyLowerChar c = lowAt i.val := by
  by_cases h0 : c = 'A'
  · subst h0
    exact Or.inr ⟨⟨0, by decide⟩, by decide, by decide⟩
  by_cases h1 : c = 'B'
  · subst h1
    exact Or.inr ⟨⟨1, by decide⟩, by decide, by decide⟩
  by_cases h2 : c = 'C'
  · subst h2
    exact Or.inr ⟨⟨2, by decide⟩, by decide, by decide⟩
  by_cases h3 : c = 'D'
  · subst h3
    exact Or.inr ⟨⟨3, by decide⟩, by decide, by decide⟩
  by_cases h4 : c = 'E'
  · subst h4
    exact Or.inr ⟨⟨4, by decide⟩, by decide, by decide⟩
  by_cases h5 : c = 'F'
  · subst h5
    exact Or.inr ⟨⟨5, by decide⟩, by decide, by decide⟩
  by_cases h6 : c = 'G'
  · subst h6
    exact Or.inr ⟨⟨6, by decide⟩, by decide, by decide⟩
  by_cases h7 : c = 'H'
  · subst h7
    exact Or.inr ⟨⟨7, by decide⟩, by decide, by decide⟩
  by_cases h8 : c = 'I'
  · subst h8
    exact Or.inr ⟨⟨8, by decide⟩, by decide, by decide⟩
  by_cases h9 : c = 'J'
  · subst h9
    exact Or.inr ⟨⟨9, by decide⟩, by decide, by decide⟩
  by_cases h10 : c = 'K'
  · subst h10
    exact Or.inr ⟨⟨10, by decide⟩, by decide, by decide⟩
  by_cases h11 : c = 'L'
  · subst h11
    exact Or.inr ⟨⟨11, by decide⟩, by decide, by decide⟩
  by_cases h12 : c = 'M'
  · subst h12
    exact Or.inr ⟨⟨12, by decide⟩, by decide, by decide⟩
  by_cases h13 : c = 'N'
  · subst h13
    exact Or.inr ⟨⟨13, by decide⟩, by decide, by decide⟩
  by_cases h14 : c = 'O'
  · subst h14
    exact Or.inr ⟨⟨14, by decide⟩, by decide, by decide⟩
  by_cases h15 : c = 'P'
  · subst h15
    exact Or.inr ⟨⟨15, by decide⟩, by decide, by decide⟩
  by_cases h16 : c = 'Q'
  · subst h16
    exact Or.inr ⟨⟨16, by decide⟩, by decide, by decide⟩
  by_cases h17 : c = 'R'
  · subst h17
    exact Or.inr ⟨⟨17, by decide⟩, by decide, by decide⟩
  by_cases h18 : c = 'S'
  · subst h18
    exact Or.inr ⟨⟨18, by decide⟩, by decide, by decide⟩
  by_cases h19 : c = 'T'
  · subst h19
    exact Or.inr ⟨⟨19, by decide⟩, by decide, by decide⟩
  by_cases h20 : c = 'U'
  · subst h20
    exact Or.inr ⟨⟨20, by decide⟩, by decide, by decide⟩
  by_cases h21 : c = 'V'
  · subst h21
    exact Or.inr ⟨⟨21, by decide⟩, by decide, by decide⟩
  by_cases h22 : c = 'W'
  · subst h22
    exact Or.inr ⟨⟨22, by decide⟩, by decide, by decide⟩
  by_cases h23 : c = 'X'
  · subst h23
    exact Or.inr ⟨⟨23, by decide⟩, by decide, by decide⟩
  by_cases h24 : c = 'Y'
  · subst h24
    exact Or.inr ⟨⟨24, by decide⟩, by decide, by decide⟩
  by_cases h25 : c = 'Z'
  · subst h25
    exact Or.inr ⟨⟨25, by decide⟩, by decide, by decide⟩
  left
  unfold pyLowerChar
  rw [if_neg h0, if_neg h1, if_neg h2, if_neg h3, if_neg h4, if_neg h5, if_neg h6, if_neg h7, if_neg h8, if_neg h9, if_neg h10, if_neg h11, if_neg h12, if_neg h13, if_neg h14, if_neg h15, if_neg h16, if_neg h17, if_neg h18, if_neg h19, if_neg h20, if_neg h21, if_neg h22, if_neg h23, if_neg h24, if_neg h25]

theorem ne_of_class {P : Char → Bool} {c d : Char} (h : P c = true)
    (hd : P d = false) : c ≠ d := by
  intro he
  subst he
  rw [h] at hd
  exact Bool.noConfusion hd

theorem not_mem_of_all {P : Char → Bool} {l : List Char} (hl : l.all P = true)
    {c : Char} (hc : P c = false) : c ∉ l := by
  intro hm
  rw [List.all_eq_true] at hl
  have h2 := hl c hm
  rw [hc] at h2
  exact Bool.noConfusion h2

theorem all_imp {P Q : Char → Bool} (h : ∀ c, P c = true → Q c = true)
    {l : List Char} (hl : l.all P = true) : l.all Q = true := by
  rw [List.all_eq_true] at hl ⊢
  exact fun c hc => h c (hl c hc)

theorem plainChar_of_ne {c : Char} (h1 : c ≠ '\t') (h2 : c ≠ '\r')
    (h3 : c ≠ '\n') : plainChar c = true := by
  simp [plainChar, h1, h2, h3]

theorem netlocSpecial_false_of_ne {c : Char} (h1 : c ≠ '/') (h2 : c ≠ '?')
    (h3 : c ≠ '#') : netlocSpecial c = false := by
  simp [netlocSpecial, h1, h2, h3]

theorem hostChar_plainChar : ∀ c, hostChar c = true → plainChar c = true :=
  fun _ h => plainChar_of_ne (ne_of_class h (by decide))
    (ne_of_class h (by decide)) (ne_of_class h (by decide))

theorem pathChar_plainChar : ∀ c, pathChar c = true → plainChar c = true :=
  fun _ h => plainChar_of_ne (ne_of_class h (by decide))
    (ne_of_class h (by decide)) (ne_of_class h (by decide))

theorem queryChar_plainChar : ∀ c, queryChar c = true → plainChar c = true :=
  fun _ h => plainChar_of_ne (ne_of_class h (by decide))
    (ne_of_class h (by decide)) (ne_of_class h (by decide))

theorem digit_plainChar : ∀ c, isAsciiDigit c = true → plainChar c = true :=
  fun _ h => plainChar_of_ne (ne_of_class h (by decide))
    (ne_of_class h (by decide)) (ne_of_class h (by decide))

theorem hostChar_not_special : ∀ c, hostChar c = true → netlocSpecial c = false :=
  fun _ h => netlocSpecial_false_of_ne (ne_of_class h (by decide))
    (ne_of_class h (by decide)) (ne_of_class h (by decide))

theorem digit_not_special : ∀ c, isAsciiDigit c = true → netlocSpecial c = false :=
  fun _ h => netlocSpecial_false_of_ne (ne_of_class h (by decide))
    (ne_of_class h (by decide)) (ne_of_class h (by decide))

theorem pyLowerChar_class {P : Char → Bool}
    (hlow : ∀ i : Fin 26, P (lowAt i.val) = true) {c : Char}
    (h : P c = true) : P (pyLowerChar c) = true := by
  rcases pyLowerChar_master c with hf | ⟨i, _, hl⟩
  · rw [hf]
    exact h
  · rw [hl]
    exact hlow i

theorem pyLowerChar_fix_of_class {P : Char → Bool}
    (hup : ∀ i : Fin 26, P (upAt i.val) = false) {c : Char}
    (h : P c = true) : pyLowerChar c = c := by
  rcases pyLowerChar_master c with hf | ⟨i, hc, _⟩
  · exact hf
  · rw [hc, hup i] at h
    exact Bool.noConfusion h

theorem pyLowerChar_idem (c : Char) :
    pyLowerChar (pyLowerChar c) = pyLowerChar c := by
  rcases pyLowerChar_master c with hf | ⟨i, _, hl⟩
  · rw [hf]
    exact hf
  · rw [hl]
    exact (by decide : ∀ j : Fin 26, pyLowerChar (lowAt j.val) = lowAt j.val) i

theorem pyLowerChar_hostChar (c : Char) (h : hostChar c = true) :
    hostChar (pyLowerChar c) = true :=
  pyLowerChar_class (by decide) h

theorem pyLowerChar_pathChar (c : Char) (h : pathChar c = true) :
    pathChar (pyLowerChar c) = true :=
  pyLowerChar_class (by decide) h

theorem pyLowerChar_queryChar (c : Char) (h : queryChar c = true) :
    queryChar (pyLowerChar c) = true :=
  pyLowerChar_class (by decide) h

theorem pyLowerChar_plainChar (c : Char) (h : plainChar c = true) :
    plainChar (pyLowerChar c) = true :=
  pyLowerChar_class (by decide) h

theorem pyLowerChar_of_digit (c : Char) (h : isAsciiDigit c = true) :
    pyLowerChar c = c :=
  pyLowerChar_fix_of_class (by decide) h

theorem splitFirst_not_mem {sep : Char} :
    ∀ {l : List Char}, sep ∉ l → splitFirst sep l = none := by
  intro l
  induction l with
  | nil => intro _; rfl
  | cons x xs ih =>
    intro h
    have hx : ¬ x = sep := fun he => h (by rw [← he]; exact List.mem_cons_self x xs)
    have hxs : sep ∉ xs := fun hm => h (List.mem_cons_of_mem x hm)
    unfold splitFirst
    rw [if_neg hx, ih hxs]

theorem splitFirst_append {sep : Char} :
    ∀ {a : List Char} (b : List Char), sep ∉ a →
      splitFirst sep (a ++ sep :: b) = some (a, b) := by
  intro a
  induction a with
  | nil =>
    intro b _
    show splitFirst sep (sep :: b) = _
    unfold splitFirst
    rw [if_pos rfl]
  | cons x xs ih =>
    intro b h
    have hx : ¬ x = sep := fun he => h (by rw [← he]; exact List.mem_cons_self x xs)
    have hxs : sep ∉ xs := fun hm => h (List.mem_cons_of_mem x hm)
    show splitFirst sep (x :: (xs ++ sep :: b)) = _
    unfold splitFirst
    rw [if_neg hx, ih b hxs]

theorem splitNetloc_append :
    ∀ {a : List Char} (b : List Char), (∀ c ∈ a, netlocSpecial c = false) →
      splitNetloc (a ++ b) = (a ++ (splitNetloc b).1, (splitNetloc b).2) := by
  intro a
  induction a with
  | nil => intro b _; rfl
  | cons x xs ih =>
    intro b h
    have hx : ¬ (netlocSpecial x = true) := by
      rw [h x (List.mem_cons_self x xs)]
      exact Bool.noConfusion
    rw [List.cons_append, splitNetloc, if_neg hx,
      ih b (fun c hc => h c (List.mem_cons_of_mem x hc))]
    rfl

theorem splitNetloc_stop (b : List Char)
    (h : b = [] ∨ ∃ c rest, b = c :: rest ∧ netlocSpecial c = true) :
    splitNetloc b = ([], b) := by
  rcases h with h | ⟨c, rest, h1, h2⟩
  · subst h
    rfl
  · subst h1
    unfold splitNetloc
    rw [if_pos h2]

theorem removeUnsafe_eq_self {l : List Char} (h : l.all plainChar = true) :
    removeUnsafe l = l := by
  unfold removeUnsafe
  rw [List.filter_eq_self]
  rw [List.all_eq_true] at h
  exact h

theorem pyLower_append (a b : List Char) :
    pyLower (a ++ b) = pyLower a ++ pyLower b := List.map_append _ _ _

theorem pyLower_eq_self : ∀ {l : List Char},
    (∀ c ∈ l, pyLowerChar c = c) → pyLower l = l := by
  intro l
  induction l with
  | nil => intro _; rfl
  | cons x xs ih =>
    intro h
    show pyLowerChar x :: pyLower xs = x :: xs
    rw [h x (List.mem_cons_self x xs), ih (fun c hc => h c (List.mem_cons_of_mem x hc))]

theorem pyLower_fix_mem : ∀ {l : List Char}, pyLower l = l →
    ∀ c ∈ l, pyLowerChar c = c := by
  intro l
  induction l with
  | nil => intro _ c hc; exact absurd hc (List.not_mem_nil c)
  | cons x xs ih =>
    intro h c hc
    have h2 : pyLowerChar x :: pyLower xs = x :: xs := h
    have hx := (List.cons.injEq _ _ _ _).mp h2
    rcases List.mem_cons.mp hc with hcx | hcs
    · rw [hcx]
      exact hx.1
    · exact ih hx.2 c hcs

theorem pyLower_idem (l : List Char) : pyLower (pyLower l) = pyLower l := by
  unfold pyLower
  rw [List.map_map]
  exact List.map_congr_left (fun c _ => pyLowerChar_idem c)

theorem pyLower_all_class {P : Char → Bool}
    (hcl : ∀ c, P c = true → P (pyLowerChar c) = true) {l : List Char}
    (h : l.all P = true) : (pyLower l).all P = true := by
  rw [List.all_eq_true] at h ⊢
  intro c hc
  rcases List.mem_map.mp hc with ⟨d, hd, hdc⟩
  rw [← hdc]
  exact hcl d (h d hd)

theorem pyLower_ne_nil {l : List Char} (h : l ≠ []) : pyLower l ≠ [] := by
  intro h2
  exact h (List.map_eq_nil_iff.mp h2)

theorem afterLastAt_eq_self {l : List Char} (h : '@' ∉ l) :
    afterLastAt l = l := by
  unfold afterLastAt
  rw [splitFirst_not_mem (fun hm => h (List.mem_reverse.mp hm))]

theorem dropWhile_idem (p : Char → Bool) :
    ∀ l : List Char, (l.dropWhile p).dropWhile p = l.dropWhile p := by
  intro l
  induction l with
  | nil => rfl
  | cons x xs ih =>
    by_cases hx : p x = true
    · rw [List.dropWhile_cons_of_pos hx]
      exact ih
    · rw [List.dropWhile_cons_of_neg hx, List.dropWhile_cons_of_neg hx]

theorem rstripSlash_idem (l : List Char) :
    rstripSlash (rstripSlash l) = rstripSlash l := by
  unfold rstripSlash
  rw [List.reverse_reverse, dropWhile_idem]

theorem rstripSlash_append_slash (l : List Char) :
    rstripSlash (l ++ ['/']) = rstripSlash l := by
  unfold rstripSlash
  rw [List.reverse_append]
  show ((('/' :: []) ++ l.reverse).dropWhile _).reverse = _
  rw [List.cons_append, List.nil_append,
    List.dropWhile_cons_of_pos (by decide)]

theorem rstripSlash_append_suffix (l : List Char) :
    ∃ t, rstripSlash l ++ t = l := by
  refine ⟨(l.reverse.takeWhile (fun c => c = '/')).reverse, ?_⟩
  unfold rstripSlash
  rw [← List.reverse_append, List.takeWhile_append_dropWhile, List.reverse_reverse]

theorem all_rstripSlash {P : Char → Bool} {l : List Char}
    (h : l.all P = true) : (rstripSlash l).all P = true := by
  rcases rstripSlash_append_suffix l with ⟨t, ht⟩
  rw [List.all_eq_true] at h ⊢
  intro c hc
  exact h c (by rw [← ht]; exact List.mem_append_left t hc)

theorem rstripSlash_head {l : List Char} (h : l.head? = some '/') :
    rstripSlash l = [] ∨ (rstripSlash l).head? = some '/' := by
  rcases rstripSlash_append_suffix l with ⟨t, ht⟩
  cases hr : rstripSlash l with
  | nil => exact Or.inl rfl
  | cons x xs =>
    right
    rw [hr] at ht
    rw [← ht] at h
    simp only [List.cons_append, List.head?_cons, Option.some.injEq] at h
    rw [List.head?_cons, h]

theorem all_append_of {P : Char → Bool} {a b : List Char}
    (ha : a.all P = true) (hb : b.all P = true) : (a ++ b).all P = true := by
  rw [List.all_append, ha, hb]
  rfl

theorem all_cons_of {P : Char → Bool} {c : Char} {l : List Char}
    (hc : P c = true) (hl : l.all P = true) : (c :: l).all P = true := by
  rw [List.all_cons, hc, hl]
  rfl

theorem splitScheme_append (scheme rest : List Char)
    (hs : scheme = chars "http" ∨ scheme = chars "https") :
    splitScheme (scheme ++ ':' :: rest) = (scheme, rest) := by
  rcases hs with h | h <;>
    (subst h
     unfold splitScheme
     rw [splitFirst_append rest (by decide)]
     rfl)

theorem tail_stop (path : List Char) (query frag : Option (List Char))
    (hph : path = [] ∨ path.head? = some '/') :
    path ++ (optQ query ++ optF frag) = [] ∨
    ∃ c rest, path ++ (optQ query ++ optF frag) = c :: rest ∧
      netlocSpecial c = true := by
  rcases hph with h | h
  · subst h
    cases query with
    | some q => exact Or.inr ⟨'?', q ++ optF frag, rfl, by decide⟩
    | none =>
      cases frag with
      | some f => exact Or.inr ⟨'#', f, rfl, by decide⟩
      | none => exact Or.inl rfl
  · cases path with
    | nil => exact absurd h (by simp)
    | cons c rest =>
      have hc : c = '/' := by simpa using h
      refine Or.inr ⟨c, rest ++ (optQ query ++ optF frag), rfl, ?_⟩
      rw [hc]
      decide

theorem not_mem_optP {port : Option (List Char)}
    (hprt : ∀ p, port = some p → p.all isAsciiDigit = true) {c : Char}
    (hc1 : isAsciiDigit c = false) (hc2 : ¬ c = ':') : c ∉ optP port := by
  cases port with
  | none => exact List.not_mem_nil c
  | some p =>
    intro hm
    rcases List.mem_cons.mp hm with h | h
    · exact hc2 h
    · exact not_mem_of_all (hprt p rfl) hc1 h

theorem netloc_no_special {host : List Char} {port : Option (List Char)}
    (hh : host.all hostChar = true)
    (hprt : ∀ p, port = some p → p.all isAsciiDigit = true) :
    ∀ c ∈ host ++ optP port, netlocSpecial c = false := by
  intro c hc
  rcases List.mem_append.mp hc with h | h
  · exact hostChar_not_special c (List.all_eq_true.mp hh c h)
  · cases port with
    | none => exact absurd h (List.not_mem_nil c)
    | some p =>
      rcases List.mem_cons.mp h with h2 | h2
      · rw [h2]
        decide
      · exact digit_not_special c (List.all_eq_true.mp (hprt p rfl) c h2)

theorem splitNetloc_renderTail (host path : List Char)
    (port query frag : Option (List Char))
    (hh : host.all hostChar = true)
    (hph : path = [] ∨ path.head? = some '/')
    (hprt : ∀ p, port = some p → p.all isAsciiDigit = true) :
    splitNetloc (host ++ (optP port ++ (path ++ (optQ query ++ optF frag)))) =
      (host ++ optP port, path ++ (optQ query ++ optF frag)) := by
  rw [← List.append_assoc]
  rw [splitNetloc_append (path ++ (optQ query ++ optF frag))
    (netloc_no_special hh hprt)]
  rw [splitNetloc_stop _ (tail_stop path query frag hph)]
  rw [List.append_nil]

theorem urlsplit_renderUrl (scheme host path : List Char)
    (port query frag : Option (List Char))
    (hs : scheme = chars "http" ∨ scheme = chars "https")
    (hh : host.all hostChar = true)
    (hph : path = [] ∨ path.head? = some '/')
    (hpc : path.all pathChar = true)
    (hq : ∀ q, query = some q → q.all queryChar = true)
    (hf : ∀ f, frag = some f → f.all plainChar = true)
    (hprt : ∀ p, port = some p → p.all isAsciiDigit = true) :
    urlsplit (renderUrl scheme host port path query frag) =
      some ⟨scheme, host ++ optP port, path, query.getD [], frag.getD []⟩ := by
  have hsplain : scheme.all plainChar = true := by
    rcases hs with h | h <;> (subst h; decide)
  have hPplain : (optP port).all plainChar = true := by
    cases port with
    | none => rfl
    | some p => exact all_cons_of (by decide) (all_imp digit_plainChar (hprt p rfl))
  have hQplain : (optQ query).all plainChar = true := by
    cases query with
    | none => rfl
    | some q => exact all_cons_of (by decide) (all_imp queryChar_plainChar (hq q rfl))
  have hFplain : (optF frag).all plainChar = true := by
    cases frag with
    | none => rfl
    | some f => exact all_cons_of (by decide) (hf f rfl)
  have hplain : (renderUrl scheme host port path query frag).all plainChar = true := by
    unfold renderUrl
    exact all_append_of hsplain (all_cons_of (by decide) (all_cons_of (by decide)
      (all_cons_of (by decide) (all_append_of (all_imp hostChar_plainChar hh)
      (all_append_of hPplain (all_append_of (all_imp pathChar_plainChar hpc)
      (all_append_of hQplain hFplain)))))))
  simp only [urlsplit]
  rw [removeUnsafe_eq_self hplain]
  rw [show renderUrl scheme host port path query frag =
    scheme ++ ':' :: '/' :: '/' ::
      (host ++ (optP port ++ (path ++ (optQ query ++ optF frag)))) from rfl]
  rw [splitScheme_append _ _ hs]
  simp only []
  rw [splitNetloc_renderTail host path port query frag hh hph hprt]
  simp only []
  have hlb : '[' ∉ host ++ optP port := by
    intro hm
    rcases List.mem_append.mp hm with h | h
    · exact not_mem_of_all hh (by decide) h
    · exact not_mem_optP hprt (by decide) (by decide) h
  have hrb : ']' ∉ host ++ optP port := by
    intro hm
    rcases List.mem_append.mp hm with h | h
    · exact not_mem_of_all hh (by decide) h
    · exact not_mem_optP hprt (by decide) (by decide) h
  have hbr : ¬(('[' ∈ host ++ optP port ∧ ']' ∉ host ++ optP port) ∨
      (']' ∈ host ++ optP port ∧ '[' ∉ host ++ optP port)) := by
    rintro (⟨h1, _⟩ | ⟨h2, _⟩)
    · exact hlb h1
    · exact hrb h2
  rw [if_neg hbr]
  have hnoHashPath : '#' ∉ path := not_mem_of_all hpc (by decide)
  have hnoQPath : '?' ∉ path := not_mem_of_all hpc (by decide)
  have hnoHashQ : '#' ∉ optQ query := by
    cases query with
    | none => exact List.not_mem_nil _
    | some q =>
      intro hm
      rcases List.mem_cons.mp hm with h | h
      · exact absurd h (by decide)
      · exact not_mem_of_all (hq q rfl) (by decide) h
  have hnoHash : '#' ∉ path ++ optQ query := by
    intro hm
    rcases List.mem_append.mp hm with h | h
    exacts [hnoHashPath h, hnoHashQ h]
  cases frag with
  | some f =>
    simp only [optF]
    rw [← List.append_assoc, splitFirst_append f hnoHash]
    simp only []
    cases query with
    | some q =>
      simp only [optQ]
      rw [splitFirst_append q hnoQPath]
      rfl
    | none =>
      simp only [optQ]
      rw [List.append_nil, splitFirst_not_mem hnoQPath]
      rfl
  | none =>
    simp only [optF]
    rw [List.append_nil, splitFirst_not_mem hnoHash]
    simp only []
    cases query with
    | some q =>
      simp only [optQ]
      rw [splitFirst_append q hnoQPath]
      rfl
    | none =>
      simp only [optQ]
      rw [List.append_nil, splitFirst_not_mem hnoQPath]
      rfl

theorem splitParams_no_semi {path : List Char} (h : ';' ∉ path) :
    splitParamsFull path = (path, []) := by
  unfold splitParamsFull
  rw [if_neg h]

theorem hostinfo_render (host : List Char) (port : Option (List Char))
    (hh : host.all hostChar = true)
    (hprt : ∀ p, port = some p → p ≠ [] ∧ p.all isAsciiDigit = true) :
    hostinfo (host ++ optP port) = (host, port) := by
  have hat : '@' ∉ host ++ optP port := by
    intro hm
    rcases List.mem_append.mp hm with h | h
    · exact not_mem_of_all hh (by decide) h
    · exact not_mem_optP (fun p hp => (hprt p hp).2) (by decide) (by decide) h
  have hbr : '[' ∉ host ++ optP port := by
    intro hm
    rcases List.mem_append.mp hm with h | h
    · exact not_mem_of_all hh (by decide) h
    · exact not_mem_optP (fun p hp => (hprt p hp).2) (by decide) (by decide) h
  have hcolon : ':' ∉ host := not_mem_of_all hh (by decide)
  unfold hostinfo
  rw [afterLastAt_eq_self hat]
  rw [if_neg hbr]
  cases port with
  | none =>
    simp only [optP]
    rw [List.append_nil, splitFirst_not_mem hcolon]
  | some p =>
    simp only [optP]
    rw [splitFirst_append p hcolon]
    simp only []
    rw [if_neg (hprt p rfl).1]

theorem portOf_render (host : List Char) (port : Option (List Char))
    (hh : host.all hostChar = true)
    (hprt : ∀ p, port = some p →
      p ≠ [] ∧ p.all isAsciiDigit = true ∧ decVal p ≤ 65535) :
    portOf (host ++ optP port) = some (port.map decVal) := by
  unfold portOf
  rw [hostinfo_render host port hh (fun p hp => ⟨(hprt p hp).1, (hprt p hp).2.1⟩)]
  cases port with
  | none => rfl
  | some p =>
    simp only []
    rw [if_pos ⟨(hprt p rfl).1, (hprt p rfl).2.1⟩, if_pos (hprt p rfl).2.2]
    rfl

theorem hostnameOf_render (host : List Char) (port : Option (List Char))
    (hh : host.all hostChar = true)
    (hprt : ∀ p, port = some p → p ≠ [] ∧ p.all isAsciiDigit = true)
    (hne : host ≠ []) (hlow : pyLower host = host) :
    hostnameOf (host ++ optP port) = some host := by
  unfold hostnameOf
  rw [hostinfo_render host port hh hprt]
  simp only []
  rw [if_neg hne, hlow]

theorem normCore_renderUrl (scheme host path : List Char)
    (port query frag : Option (List Char))
    (hs : scheme = chars "http" ∨ scheme = chars "https")
    (hne : host ≠ []) (hh : host.all hostChar = true)
    (hlow : pyLower host = host)
    (hph : path = [] ∨ path.head? = some '/')
    (hpc : path.all pathChar = true)
    (hq : ∀ q, query = some q → q.all queryChar = true)
    (hf : ∀ f, frag = some f → f.all plainChar = true)
    (hprt : ∀ p, port = some p →
      p ≠ [] ∧ p.all isAsciiDigit = true ∧ decVal p ≤ 65535) :
    normCore (renderUrl scheme host port path query frag) =
      some (canonUrl scheme host port path query) := by
  unfold normCore
  rw [urlsplit_renderUrl scheme host path port query frag hs hh hph hpc hq hf
    (fun p hp => (hprt p hp).2.1)]
  simp only []
  rw [splitParams_no_semi (not_mem_of_all hpc (by decide))]
  rw [portOf_render host port hh hprt]
  simp only []
  cases port with
  | none =>
    simp only [Option.map]
    rw [if_neg (fun h => Option.noConfusion h.1),
      if_neg (fun h => Option.noConfusion h.1)]
    simp only [canonUrl, canonNetloc, optP]
    rw [List.append_nil]
    rfl
  | some p =>
    simp only [Option.map]
    by_cases h80 : decVal p = 80 ∧ scheme = chars "http"
    · rw [if_pos ⟨by rw [h80.1], h80.2⟩]
      rw [hostnameOf_render host (some p) hh
        (fun p2 hp2 => ⟨(hprt p2 hp2).1, (hprt p2 hp2).2.1⟩) hne hlow]
      simp only [canonUrl, canonNetloc]
      rw [if_pos (Or.inl h80)]
      rfl
    · by_cases h443 : decVal p = 443 ∧ scheme = chars "https"
      · rw [if_neg (fun hcond => h80 ⟨Option.some.inj hcond.1, hcond.2⟩)]
        rw [if_pos ⟨by rw [h443.1], h443.2⟩]
        rw [hostnameOf_render host (some p) hh
          (fun p2 hp2 => ⟨(hprt p2 hp2).1, (hprt p2 hp2).2.1⟩) hne hlow]
        simp only [canonUrl, canonNetloc]
        rw [if_pos (Or.inr h443)]
        rfl
      · rw [if_neg (fun hcond => h80 ⟨Option.some.inj hcond.1, hcond.2⟩)]
        rw [if_neg (fun hcond => h443 ⟨Option.some.inj hcond.1, hcond.2⟩)]
        have hnd : ¬((decVal p = 80 ∧ scheme = chars "http") ∨
            (decVal p = 443 ∧ scheme = chars "https")) := by
          rintro (h | h)
          · exact h80 h
          · exact h443 h
        simp only [canonUrl, canonNetloc]
        rw [if_neg hnd]
        rfl

theorem pyLower_digits {p : List Char} (h : p.all isAsciiDigit = true) :
    pyLower p = p :=
  pyLower_eq_self (fun c hc => pyLowerChar_of_digit c (List.all_eq_true.mp h c hc))

theorem pyLower_renderUrl (scheme host : List Char) (port : Option (List Char))
    (path : List Char) (query frag : Option (List Char)) :
    pyLower (renderUrl scheme host port path query frag) =
      renderUrl (pyLower scheme) (pyLower host) (port.map pyLower)
        (pyLower path) (query.map pyLower) (frag.map pyLower) := by
  have h1 : pyLowerChar ':' = ':' := by decide
  have h2 : pyLowerChar '/' = '/' := by decide
  have h3 : pyLowerChar '?' = '?' := by decide
  have h4 : pyLowerChar '#' = '#' := by decide
  unfold renderUrl
  cases port <;> cases query <;> cases frag <;>
    simp [optP, optQ, optF, pyLower, List.map_append, h1, h2, h3, h4]

theorem normalize_renderUrl (scheme host path : List Char)
    (port query frag : Option (List Char))
    (hs : pyLower scheme = chars "http" ∨ pyLower scheme = chars "https")
    (hne : host ≠ []) (hh : host.all hostChar = true)
    (hph : path = [] ∨ path.head? = some '/')
    (hpc : path.all pathChar = true)
    (hq : ∀ q, query = some q → q.all queryChar = true)
    (hf : ∀ f, frag = some f → f.all plainChar = true)
    (hprt : ∀ p, port = some p →
      p ≠ [] ∧ p.all isAsciiDigit = true ∧ decVal p ≤ 65535) :
    normalize_url (renderUrl scheme host port path query frag) =
      some (canonUrl (pyLower scheme) (pyLower host) port (pyLower path)
        (query.map pyLower)) := by
  have hmapP : port.map pyLower = port := by
    cases port with
    | none => rfl
    | some p =>
      show some (pyLower p) = some p
      rw [pyLower_digits (hprt p rfl).2.1]
  unfold normalize_url
  rw [pyLower_renderUrl, hmapP]
  refine normCore_renderUrl (pyLower scheme) (pyLower host) (pyLower path) port
    (query.map pyLower) (frag.map pyLower) hs (pyLower_ne_nil hne)
    (pyLower_all_class pyLowerChar_hostChar hh) (pyLower_idem host) ?_
    (pyLower_all_class pyLowerChar_pathChar hpc) ?_ ?_ hprt
  · rcases hph with h | h
    · left
      rw [h]
      rfl
    · right
      cases path with
      | nil => exact absurd h (by simp)
      | cons c rest =>
        have hc : c = '/' := by simpa using h
        show (pyLowerChar c :: pyLower rest).head? = some '/'
        rw [hc]
        rfl
  · intro q2 hq2
    cases query with
    | none => exact Option.noConfusion hq2
    | some q =>
      have : pyLower q = q2 := Option.some.inj hq2
      rw [← this]
      exact pyLower_all_class pyLowerChar_queryChar (hq q rfl)
  · intro f2 hf2
    cases frag with
    | none => exact Option.noConfusion hf2
    | some f =>
      have : pyLower f = f2 := Option.some.inj hf2
      rw [← this]
      exact pyLower_all_class pyLowerChar_plainChar (hf f rfl)

theorem canonPath_head (path : List Char)
    (hph : path = [] ∨ path.head? = some '/') :
    (canonPath path).head? = some '/' := by
  unfold canonPath
  rcases hph with h | h
  · subst h
    rfl
  · rcases rstripSlash_head h with h2 | h2
    · rw [h2]
      rfl
    · rw [if_neg (fun he => by rw [he] at h2; exact Option.noConfusion h2)]
      exact h2

theorem canonNetloc_as_optP (scheme host : List Char) (port : Option (List Char)) :
    canonNetloc scheme host port = host ++ optP (cnPort scheme port) := by
  unfold canonNetloc cnPort
  cases port with
  | none =>
    simp [optP]
  | some p =>
    simp only []
    by_cases hd : (decVal p = 80 ∧ scheme = chars "http") ∨
        (decVal p = 443 ∧ scheme = chars "https")
    · rw [if_pos hd, if_pos hd]
      simp [optP]
    · rw [if_neg hd, if_neg hd]
      rfl

theorem canonUrl_eq_renderUrl (scheme host path : List Char)
    (port query : Option (List Char))
    (hs : scheme = chars "http" ∨ scheme = chars "https")
    (hne : host ≠ [])
    (hph : path = [] ∨ path.head? = some '/') :
    canonUrl scheme host port path query =
      renderUrl scheme host (cnPort scheme port) (canonPath path)
        (cnQuery query) none := by
  have hcp := canonPath_head path hph
  have hcn := canonNetloc_as_optP scheme host port
  have hcnne : canonNetloc scheme host port ≠ [] := by
    rw [hcn]
    cases host with
    | nil => exact absurd rfl hne
    | cons c rest => simp
  unfold canonUrl urlunparse renderUrl
  have hsne : scheme ≠ [] := by rcases hs with h | h <;> (subst h; decide)
  have hisEmpty : (canonNetloc scheme host port).isEmpty = false := by
    cases hcn2 : canonNetloc scheme host port with
    | nil => exact absurd hcn2 hcnne
    | cons c r => rfl
  have hu1 : ¬(canonPath path ≠ [] ∧ (canonPath path).head? ≠ some '/') :=
    fun h2 => h2.2 hcp
  cases query with
  | none =>
    simp [hisEmpty, hu1, hsne, hcn, optF, optQ, cnQuery]
    intro h
    exact absurd h hne
  | some q =>
    by_cases hq0 : q = []
    · subst hq0
      simp [hisEmpty, hu1, hsne, hcn, optF, optQ, cnQuery]
      intro h
      exact absurd h hne
    · simp [hisEmpty, hu1, hsne, hcn, optF, optQ, cnQuery, hq0]
      rw [if_pos (Or.inl (fun h => absurd h hne))]
      simp [List.append_assoc]

theorem canonPath_all {path : List Char} (hpc : path.all pathChar = true) :
    (canonPath path).all pathChar = true := by
  unfold canonPath
  simp only []
  split
  · decide
  · exact all_rstripSlash hpc

theorem canonPath_stable (path : List Char) :
    canonPath (canonPath path) = canonPath path := by
  have h1 : canonPath path = chars "/" ∨
      (canonPath path = rstripSlash path ∧ rstripSlash path ≠ []) := by
    unfold canonPath
    by_cases h : rstripSlash path = []
    · rw [if_pos h]
      exact Or.inl rfl
    · rw [if_neg h]
      exact Or.inr ⟨rfl, h⟩
  rcases h1 with h | ⟨h, hne⟩
  · rw [h]
    decide
  · rw [h]
    unfold canonPath
    simp only []
    rw [rstripSlash_idem, if_neg hne]

theorem cnPort_stable (scheme host : List Char) (port : Option (List Char)) :
    canonNetloc scheme host (cnPort scheme port) = canonNetloc scheme host port := by
  unfold canonNetloc cnPort
  cases port with
  | none => rfl
  | some p =>
    simp only []
    by_cases hd : (decVal p = 80 ∧ scheme = chars "http") ∨
        (decVal p = 443 ∧ scheme = chars "https")
    · rw [if_pos hd, if_pos hd]
    · rw [if_neg hd, if_neg hd]
      simp only []
      rw [if_neg hd]

theorem cnQuery_getD (query : Option (List Char)) :
    (cnQuery query).getD [] = query.getD [] := by
  cases query with
  | none => rfl
  | some q =>
    unfold cnQuery
    simp only []
    by_cases hq0 : q = []
    · rw [if_pos hq0, hq0]
      rfl
    · rw [if_neg hq0]

theorem canonUrl_stable (scheme host path : List Char)
    (port query : Option (List Char)) :
    canonUrl scheme host (cnPort scheme port) (canonPath path) (cnQuery query) =
      canonUrl scheme host port path query := by
  unfold canonUrl
  rw [cnPort_stable, canonPath_stable, cnQuery_getD]

theorem normalize_fixed_point_family (scheme host path : List Char)
    (port query : Option (List Char))
    (hs : scheme = chars "http" ∨ scheme = chars "https")
    (hne : host ≠ []) (hh : host.all hostChar = true)
    (hlow : pyLower host = host)
    (hph : path = [] ∨ path.head? = some '/')
    (hpc : path.all pathChar = true) (hplow : pyLower path = path)
    (hq : ∀ q, query = some q → q.all queryChar = true)
    (hqlow : ∀ q, query = some q → pyLower q = q)
    (hprt : ∀ p, port = some p →
      p ≠ [] ∧ p.all isAsciiDigit = true ∧ decVal p ≤ 65535) :
    normalize_url (renderUrl scheme host port path query none) =
      some (canonUrl scheme host port path query) ∧
    normalize_url (canonUrl scheme host port path query) =
      some (canonUrl scheme host port path query) := by
  have hslow : pyLower scheme = scheme := by
    rcases hs with h | h <;> (subst h; decide)
  have hs2 : pyLower scheme = chars "http" ∨ pyLower scheme = chars "https" := by
    rw [hslow]
    exact hs
  have hqmap : query.map pyLower = query := by
    cases query with
    | none => rfl
    | some q =>
      show some (pyLower q) = some q
      rw [hqlow q rfl]
  constructor
  · rw [normalize_renderUrl scheme host path port query none hs2 hne hh
      hph hpc hq (fun f hf2 => Option.noConfusion hf2) hprt]
    rw [hslow, hlow, hplow, hqmap]
  · rw [canonUrl_eq_renderUrl scheme host path port query hs hne hph]
    have hcq : ∀ q2, cnQuery query = some q2 → q2.all queryChar = true := by
      intro q2 hq2
      cases query with
      | none => exact Option.noConfusion hq2
      | some q =>
        unfold cnQuery at hq2
        simp only [] at hq2
        by_cases hq0 : q = []
        · rw [if_pos hq0] at hq2
          exact Option.noConfusion hq2
        · rw [if_neg hq0] at hq2
          rw [← Option.some.inj hq2]
          exact hq q rfl
    have hcqlow : (cnQuery query).map pyLower = cnQuery query := by
      cases query with
      | none => rfl
      | some q =>
        unfold cnQuery
        simp only []
        by_cases hq0 : q = []
        · rw [if_pos hq0]
          rfl
        · rw [if_neg hq0]
          show some (pyLower q) = some q
          rw [hqlow q rfl]
    have hcprt : ∀ p, cnPort scheme port = some p →
        p ≠ [] ∧ p.all isAsciiDigit = true ∧ decVal p ≤ 65535 := by
      intro p hp
      cases port with
      | none => exact Option.noConfusion hp
      | some p2 =>
        unfold cnPort at hp
        simp only [] at hp
        by_cases hd : (decVal p2 = 80 ∧ scheme = chars "http") ∨
            (decVal p2 = 443 ∧ scheme = chars "https")
        · rw [if_pos hd] at hp
          exact Option.noConfusion hp
        · rw [if_neg hd] at hp
          rw [← Option.some.inj hp]
          exact hprt p2 rfl
    have hcplow : pyLower (canonPath path) = canonPath path := by
      unfold canonPath
      simp only []
      split
      · decide
      · rcases rstripSlash_append_suffix path with ⟨t, ht⟩
        exact pyLower_eq_self (fun c hc =>
          pyLower_fix_mem hplow c (by rw [← ht]; exact List.mem_append_left t hc))
    rw [normalize_renderUrl scheme host (canonPath path) (cnPort scheme port)
      (cnQuery query) none hs2 hne hh
      (Or.inr (canonPath_head path hph)) (canonPath_all hpc) hcq
      (fun f hf2 => Option.noConfusion hf2) hcprt]
    rw [hslow, hlow, hcplow, hcqlow, canonUrl_stable]
    rw [canonUrl_eq_renderUrl scheme host path port query hs hne hph]

theorem is_same_domain_renderUrl (host domain path : List Char) (query frag : Option (List Char))
    (hh : host.all hostChar = true)
    (hph : path = [] ∨ path.head? = some '/')
    (hpc : path.all pathChar = true)
    (hq : ∀ q, query = some q → q.all queryChar = true)
    (hf : ∀ f, frag = some f → f.all plainChar = true) :
    is_same_domain (renderUrl (chars "https") host none path query frag) domain =
      (decide (stripWwwAll (pyLower host) = stripWwwAll (pyLower domain)) ||
       lendsWith (stripWwwAll (pyLower host)) ('.' :: stripWwwAll (pyLower domain))) := by
  unfold is_same_domain
  rw [urlsplit_renderUrl (chars "https") host path none query frag (Or.inr rfl)
    hh hph hpc hq hf (fun p hp => Option.noConfusion hp)]
  simp only [optP, List.append_nil]

/-- C6 amended: `normalize_url` returns a result on every well-formed
http(s) URL of the structured family and best-effort strings on authority-free
malformed input, but — per the counterexample — not on every string. -/
theorem C6_normalize_total_on_wellformed :
    (∀ (scheme host path : List Char) (port query frag : Option (List Char)),
      (pyLower scheme = chars "http" ∨ pyLower scheme = chars "https") →
      host ≠ [] → host.all hostChar = true →
      (path = [] ∨ path.head? = some '/') → path.all pathChar = true →
      (∀ q, query = some q → q.all queryChar = true) →
      (∀ f, frag = some f → f.all plainChar = true) →
      (∀ p, port = some p →
        p ≠ [] ∧ p.all isAsciiDigit = true ∧ decVal p ≤ 65535) →
      (normalize_url (renderUrl scheme host port path query frag)).isSome = true) ∧
    normalize_url (chars "not a url") = some (chars "not a url") := by
  constructor
  · intro scheme host path port query frag hs hne hh hph hpc hq hf hprt
    rw [normalize_renderUrl scheme host path port query frag hs hne hh hph hpc
      hq hf hprt]
    rfl
  · decide

/-- C6 amended witness. -/
theorem C6_normalize_total_on_wellformed_witness :
    ((chars "example.com") ≠ ([] : List Char)) ∧
    (normalize_url (renderUrl (chars "http") (chars "example.com")
      (some (chars "8080")) (chars "/a") none none)).isSome = true :=
  ⟨by decide,
   C6_normalize_total_on_wellformed.1 (chars "http") (chars "example.com")
     (chars "/a") (some (chars "8080")) none none (by decide) (by decide)
     (by decide) (by decide) (by decide)
     (fun _ hq => Option.noConfusion hq)
     (fun _ hf => Option.noConfusion hf)
     (fun p hp => by rw [← Option.some.inj hp]; exact ⟨by decide, by decide, by decide⟩)⟩

/-- C7 amended: `is_same_domain` compares hosts case-insensitively after
deleting every occurrence of the substring `www.` from both sides
(`str.replace`, not only a leading prefix), returning true iff the stripped
host equals the stripped domain or ends with `.<stripped domain>`; the
claim's two concrete examples hold. -/
theorem C7_same_domain_strip_all_www :
    is_same_domain (chars "https://blog.example.com/x")
      (chars "example.com") = true ∧
    is_same_domain (chars "https://example.org") (chars "example.com") = false ∧
    (∀ (host domain path : List Char) (query frag : Option (List Char)),
      host.all hostChar = true →
      (path = [] ∨ path.head? = some '/') → path.all pathChar = true →
      (∀ q, query = some q → q.all queryChar = true) →
      (∀ f, frag = some f → f.all plainChar = true) →
      is_same_domain (renderUrl (chars "https") host none path query frag)
          domain =
        (decide (stripWwwAll (pyLower host) = stripWwwAll (pyLower domain)) ||
         lendsWith (stripWwwAll (pyLower host))
           ('.' :: stripWwwAll (pyLower domain)))) := by
  refine ⟨by decide, by decide, ?_⟩
  intro host domain path query frag hh hph hpc hq hf
  exact is_same_domain_renderUrl host domain path query frag hh hph hpc hq hf

/-- C7 amended witness. -/
theorem C7_same_domain_strip_all_www_witness :
    ((chars "blog.example.com").all hostChar = true) ∧
    is_same_domain (renderUrl (chars "https") (chars "blog.example.com") none
        (chars "/x") none none) (chars "example.com") =
      (decide (stripWwwAll (pyLower (chars "blog.example.com")) =
          stripWwwAll (pyLower (chars "example.com"))) ||
       lendsWith (stripWwwAll (pyLower (chars "blog.example.com")))
         ('.' :: stripWwwAll (pyLower (chars "example.com")))) :=
  ⟨by decide,
   C7_same_domain_strip_all_www.2.2 (chars "blog.example.com")
     (chars "example.com") (chars "/x") none none (by decide) (by decide)
     (by decide) (fun _ hq => Option.noConfusion hq)
     (fun _ hf => Option.noConfusion hf)⟩

/-- C10 amended: on the structured family of well-formed http(s) URLs (all
components already lowercase), `normalize_url` maps the URL to its canonical
string and that canonical string is a fixed point, so normalization is
idempotent there; per the counterexample it is not idempotent on every
accepted input. -/
theorem C10_idempotent_on_wellformed (scheme host path : List Char)
    (port query : Option (List Char))
    (hs : scheme = chars "http" ∨ scheme = chars "https")
    (hne : host ≠ []) (hh : host.all hostChar = true)
    (hlow : pyLower host = host)
    (hph : path = [] ∨ path.head? = some '/')
    (hpc : path.all pathChar = true) (hplow : pyLower path = path)
    (hq : ∀ q, query = some q → q.all queryChar = true)
    (hqlow : ∀ q, query = some q → pyLower q = q)
    (hprt : ∀ p, port = some p →
      p ≠ [] ∧ p.all isAsciiDigit = true ∧ decVal p ≤ 65535) :
    normalize_url (renderUrl scheme host port path query none) =
      some (canonUrl scheme host port path query) ∧
    normalize_url (canonUrl scheme host port path query) =
      some (canonUrl scheme host port path query) :=
  normalize_fixed_point_family scheme host path port query hs hne hh hlow hph
    hpc hplow hq hqlow hprt

/-- C10 amended witness: a URL with a non-default port and a query; its
canonical form evaluates to a concrete string and is a fixed point. -/
theorem C10_idempotent_on_wellformed_witness :
    ((chars "example.com") ≠ ([] : List Char)) ∧
    canonUrl (chars "http") (chars "example.com") (some (chars "8080"))
      (chars "/a/") (some (chars "q=1")) = chars "http://example.com:8080/a?q=1" ∧
    (normalize_url (renderUrl (chars "http") (chars "example.com")
        (some (chars "8080")) (chars "/a/") (some (chars "q=1")) none) =
      some (canonUrl (chars "http") (chars "example.com") (some (chars "8080"))
        (chars "/a/") (some (chars "q=1"))) ∧
     normalize_url (canonUrl (chars "http") (chars "example.com")
        (some (chars "8080")) (chars "/a/") (some (chars "q=1"))) =
      some (canonUrl (chars "http") (chars "example.com") (some (chars "8080"))
        (chars "/a/") (some (chars "q=1")))) :=
  ⟨by decide, by decide,
   C10_idempotent_on_wellformed (chars "http") (chars "example.com")
     (chars "/a/") (some (chars "8080")) (some (chars "q=1")) (by decide)
     (by decide) (by decide) (by decide) (by decide) (by decide) (by decide)
     (fun q hq => by rw [← Option.some.inj hq]; decide)
     (fun q hq => by rw [← Option.some.inj hq]; decide)
     (fun p hp => by rw [← Option.some.inj hp]; exact ⟨by decide, by decide, by decide⟩)⟩
